import Mathlib

/-!
Verification of the ThoughtNet knowledge-graph core.

The definitions below are a shallow embedding of the TypeScript source:
* `extractLinks` embeds the scan of `/\[\[(.*?)\]\]/g` from src/types.ts
  (lazy capture, `.` excludes line terminators, global non-overlapping scan).
* `extractTags` embeds the scan of `/#(\w+)/g` from src/types.ts
  (greedy `\w+` over ASCII word characters).
* `titleToId`, `buildLinks`, `resolvedPairs`, `adjacencyList`, `buildNodes`
  embed the GraphView component: the title-resolution map (a JS `Map` built
  from `[title.toLowerCase(), id]` pairs, later entries overwriting earlier),
  the edge construction, the undirected connection map of `Set`s used for
  highlighting, and the node construction.
* `isConnected`, `isDirectLink`, `linkOpacity`, `nodeOpacity` embed the
  highlight effect; `dragStart`, `dragMove`, `dragEnd` embed the d3 drag
  handlers.

Strings are modelled as `List Char`; machine text indices never overflow
here so no modular arithmetic is needed.
-/

/-- JavaScript line terminators: the characters `.` does not match. -/
def isLineTerm (c : Char) : Bool :=
  c = '\n' || c = '\r' || c.toNat = 0x2028 || c.toNat = 0x2029

/-- JavaScript `\w`: ASCII letters, digits and underscore. -/
def isWordChar (c : Char) : Bool :=
  c.isAlpha || c.isDigit || c = '_'

/-- Whether a character list starts with a word character. -/
def headIsWord : List Char → Bool
  | [] => false
  | c :: _ => isWordChar c

/-- Scan for the lazily-nearest closing `]]`: returns the captured text and
the remainder after the `]]`, or `none` if a line terminator or the end of
input comes first (the capture group `(.*?)` cannot cross a line
terminator). -/
def findClose : List Char → Option (List Char × List Char)
  | [] => none
  | c :: rest =>
      if c = ']' ∧ rest.head? = some ']' then some ([], rest.tail)
      else if isLineTerm c then none
      else (findClose rest).map (fun p => (c :: p.1, p.2))

/-- Longest prefix of word characters, and the remainder (greedy `\w+`). -/
def takeWord : List Char → List Char × List Char
  | [] => ([], [])
  | c :: rest =>
      if isWordChar c then ((takeWord rest).1.cons c, (takeWord rest).2)
      else ([], c :: rest)

theorem findClose_length : ∀ (l : List Char) (p : List Char × List Char),
    findClose l = some p → p.2.length < l.length := by
  intro l
  induction l with
  | nil => intro p h; simp [findClose] at h
  | cons c rest ih =>
    intro p h
    simp only [findClose] at h
    split at h
    · rename_i hcl
      cases h
      simp only [List.length_cons]
      have : rest.tail.length ≤ rest.length := by
        cases rest <;> simp
      omega
    · split at h
      · exact absurd h (by simp)
      · cases hq : findClose rest with
        | none => rw [hq] at h; exact absurd h (by simp)
        | some q =>
          rw [hq, Option.map_some'] at h
          have h2 := Option.some.inj h
          subst h2
          have := ih q hq
          simp only [List.length_cons]
          omega

theorem takeWord_length : ∀ l : List Char, (takeWord l).2.length ≤ l.length := by
  intro l
  induction l with
  | nil => simp [takeWord]
  | cons c rest ih =>
    simp only [takeWord]
    split
    · simpa using Nat.le_succ_of_le ih
    · simp

/-- Fuel-indexed global scan for `/\[\[(.*?)\]\]/g`.  At each position: if a
`[[` starts here and a lazy close is found, emit the capture and resume
after the `]]`; if no close is reachable, the regex engine retries from the
next position (one character further); otherwise advance one character. -/
def extractLinksF : Nat → List Char → List (List Char)
  | 0, _ => []
  | _ + 1, [] => []
  | fuel + 1, c :: rest =>
      if c = '[' ∧ rest.head? = some '[' then
        match findClose rest.tail with
        | some p => p.1 :: extractLinksF fuel p.2
        | none => extractLinksF fuel rest
      else extractLinksF fuel rest

/-- Embedding of `extractLinks` from src/types.ts: all captures of the
global regex `/\[\[(.*?)\]\]/g`, in scan order. -/
def extractLinks (l : List Char) : List (List Char) :=
  extractLinksF l.length l

/-- Fuel-indexed global scan for `/#(\w+)/g`: at a `#` followed by a word
character, capture the maximal word-character run and resume after it;
otherwise advance one character. -/
def extractTagsF : Nat → List Char → List (List Char)
  | 0, _ => []
  | _ + 1, [] => []
  | fuel + 1, c :: rest =>
      if c = '#' ∧ headIsWord rest = true then
        (takeWord rest).1 :: extractTagsF fuel (takeWord rest).2
      else extractTagsF fuel rest

/-- Embedding of `extractTags` from src/types.ts: all captures of the
global regex `/#(\w+)/g`, in scan order. -/
def extractTags (l : List Char) : List (List Char) :=
  extractTagsF l.length l

theorem extractLinksF_fuel : ∀ (f g : Nat) (l : List Char),
    l.length ≤ f → l.length ≤ g → extractLinksF f l = extractLinksF g l := by
  intro f
  induction f with
  | zero =>
    intro g l hf _
    have : l = [] := List.length_eq_zero.mp (Nat.le_zero.mp hf)
    subst this
    cases g <;> simp [extractLinksF]
  | succ f ih =>
    intro g l hf hg
    cases l with
    | nil => cases g <;> simp [extractLinksF]
    | cons c rest =>
      cases g with
      | zero => simp at hg
      | succ g =>
        simp only [extractLinksF]
        split
        · cases hfc : findClose rest.tail with
          | some p =>
            have hlen := findClose_length rest.tail p hfc
            have htail : rest.tail.length ≤ rest.length := by
              cases rest <;> simp
            simp only [List.length_cons] at hf hg
            exact congrArg _ (ih g p.2 (by omega) (by omega))
          | none =>
            simp only [List.length_cons] at hf hg
            exact ih g rest (by omega) (by omega)
        · simp only [List.length_cons] at hf hg
          exact ih g rest (by omega) (by omega)

theorem extractTagsF_fuel : ∀ (f g : Nat) (l : List Char),
    l.length ≤ f → l.length ≤ g → extractTagsF f l = extractTagsF g l := by
  intro f
  induction f with
  | zero =>
    intro g l hf _
    have : l = [] := List.length_eq_zero.mp (Nat.le_zero.mp hf)
    subst this
    cases g <;> simp [extractTagsF]
  | succ f ih =>
    intro g l hf hg
    cases l with
    | nil => cases g <;> simp [extractTagsF]
    | cons c rest =>
      cases g with
      | zero => simp at hg
      | succ g =>
        simp only [extractTagsF]
        split
        · have := takeWord_length rest
          simp only [List.length_cons] at hf hg
          exact congrArg _ (ih g (takeWord rest).2 (by omega) (by omega))
        · simp only [List.length_cons] at hf hg
          exact ih g rest (by omega) (by omega)

theorem extractLinks_nil : extractLinks [] = [] := rfl

theorem extractLinks_not_open {c : Char} {rest : List Char}
    (h : ¬(c = '[' ∧ rest.head? = some '[')) :
    extractLinks (c :: rest) = extractLinks rest := by
  simp only [extractLinks, List.length_cons, extractLinksF, if_neg h]

theorem extractLinksF_open_some {rest : List Char} {p : List Char × List Char}
    {f : Nat} (h : findClose rest = some p) :
    extractLinksF (f + 1) ('[' :: '[' :: rest) = p.1 :: extractLinksF f p.2 := by
  simp [extractLinksF, h]

theorem extractLinksF_open_none {rest : List Char} {f : Nat}
    (h : findClose rest = none) :
    extractLinksF (f + 1) ('[' :: '[' :: rest) = extractLinksF f ('[' :: rest) := by
  simp [extractLinksF, h]

theorem extractLinks_open_some {rest : List Char} {p : List Char × List Char}
    (h : findClose rest = some p) :
    extractLinks ('[' :: '[' :: rest) = p.1 :: extractLinks p.2 := by
  have hlen := findClose_length rest p h
  have h1 : extractLinks ('[' :: '[' :: rest)
      = extractLinksF (rest.length + 1 + 1) ('[' :: '[' :: rest) := rfl
  rw [h1, extractLinksF_open_some h]
  exact congrArg _ (extractLinksF_fuel _ _ _ (by omega) (le_refl _))

theorem extractLinks_open_none {rest : List Char}
    (h : findClose rest = none) :
    extractLinks ('[' :: '[' :: rest) = extractLinks ('[' :: rest) := by
  have h1 : extractLinks ('[' :: '[' :: rest)
      = extractLinksF (rest.length + 1 + 1) ('[' :: '[' :: rest) := rfl
  rw [h1, extractLinksF_open_none h]
  rfl

theorem extractTags_nil : extractTags [] = [] := rfl

theorem extractTags_no {c : Char} {rest : List Char}
    (h : ¬(c = '#' ∧ headIsWord rest = true)) :
    extractTags (c :: rest) = extractTags rest := by
  simp only [extractTags, List.length_cons, extractTagsF, if_neg h]

theorem extractTagsF_hash {rest : List Char} {f : Nat} (h : headIsWord rest = true) :
    extractTagsF (f + 1) ('#' :: rest)
      = (takeWord rest).1 :: extractTagsF f (takeWord rest).2 := by
  simp [extractTagsF, h]

theorem extractTags_hash {rest : List Char} (h : headIsWord rest = true) :
    extractTags ('#' :: rest) = (takeWord rest).1 :: extractTags (takeWord rest).2 := by
  have h1 : extractTags ('#' :: rest) = extractTagsF (rest.length + 1) ('#' :: rest) := rfl
  rw [h1, extractTagsF_hash h]
  exact congrArg _ (extractTagsF_fuel _ _ _ (takeWord_length rest) (le_refl _))

example : extractLinks ("a [[B]] c [[D]]".data) = ["B".data, "D".data] := by decide
example : extractLinks ("[[a]b]]".data) = ["a]b".data] := by decide
example : extractLinks ("[[[x]]".data) = ["[x".data] := by decide
example : extractLinks ("x [[unterminated".data) = [] := by decide
example : extractLinks ("pre [[a\n b]] [[c]]".data) = ["c".data] := by decide
example : extractLinks ("[[]]".data) = [[]] := by decide
example : extractTags ("#a #b_1 c#d ## #".data) = ["a".data, "b_1".data, "d".data] := by decide
example : extractTags ("##x".data) = ["x".data] := by decide
example : extractTags ("no tags".data) = [] := by decide

/-- A note as consumed by the graph view (src/types.ts `Note`; the fields
`createdAt`, `updatedAt`, `tags` are not read by the graph code and are
omitted). -/
structure Note where
  id : String
  title : List Char
  content : List Char
  folder : String
deriving DecidableEq, Repr

/-- An edge of the graph (src/types.ts `GraphLink`), with endpoints as note
identities, as produced by the links construction. -/
structure GraphLink where
  source : String
  target : String
deriving DecidableEq, Repr

/-- A node of the graph (src/types.ts `GraphNode`).  `x`, `y` are the
simulation position (absent on a freshly constructed node), `fx`, `fy` the
fixed-position override (absent or `null` when not dragging; both are
modelled as `none`). -/
structure GraphNode where
  id : String
  title : List Char
  group : Nat
  x : Option ℚ
  y : Option ℚ
  fx : Option ℚ
  fy : Option ℚ
deriving DecidableEq, Repr

/-- `String.prototype.toLowerCase` restricted to ASCII, as used on titles. -/
def lower (l : List Char) : List Char :=
  l.map Char.toLower

/-- Embedding of the title resolution map
`new Map(notes.map(n => [n.title.toLowerCase(), n.id]))` followed by
`.get(key)`: a JS `Map` keeps the last value written for a key, so lookup
finds the last note (first in the reversed list) whose lowered title equals
the key.  The same construction appears twice in GraphView (connectionMap
and the D3 effect). -/
def titleToId (notes : List Note) (key : List Char) : Option String :=
  (notes.reverse.find? (fun n => lower n.title = key)).map Note.id

/-- Resolution of one captured reference into an edge from `srcId`:
`const targetId = titleToIdMap.get(linkedTitle.toLowerCase()); if (targetId) ...`.
The `if (targetId)` guard drops every falsy value: a miss (`undefined`)
and also an empty-string target id. -/
def resolveRef (notes : List Note) (srcId : String) (t : List Char) : Option GraphLink :=
  match titleToId notes (lower t) with
  | some tid => if tid = "" then none else some ⟨srcId, tid⟩
  | none => none

/-- All edges contributed by one note: each extracted reference that
resolves produces one edge, in order, duplicates kept. -/
def linksOfNote (notes : List Note) (note : Note) : List GraphLink :=
  (extractLinks note.content).filterMap (resolveRef notes note.id)

/-- Embedding of the `links` construction in the GraphView D3 effect. -/
def buildLinks (notes : List Note) : List GraphLink :=
  notes.flatMap (linksOfNote notes)

/-- The resolved `(source.id, targetId)` pairs processed by the
`connectionMap` loop, in processing order; the loop's `if (targetId)`
guard skips a miss and an empty-string (falsy) target id. -/
def resolvedPairs (notes : List Note) : List (String × String) :=
  notes.flatMap (fun src =>
    (extractLinks src.content).filterMap (fun t =>
      match titleToId notes (lower t) with
      | some tid => if tid = "" then none else some (src.id, tid)
      | none => none))

/-- JS `Set.prototype.add` on an insertion-ordered set modelled as a
duplicate-free list. -/
def setAdd (s : List String) (x : String) : List String :=
  if x ∈ s then s else s ++ [x]

/-- The neighbor set `connectionMap.get(a)` (empty when the map has no
entry for `a`): every processed pair `(src, tgt)` adds `tgt` to `src`'s set
and `src` to `tgt`'s set. -/
def adjacencyList (notes : List Note) (a : String) : List String :=
  (resolvedPairs notes).foldl
    (fun s p =>
      let s1 := if p.1 = a then setAdd s p.2 else s
      if p.2 = a then setAdd s1 p.1 else s1) []

/-- Folder-to-group mapping of the node construction
(`note.folder === 'Inbox' ? 1 : note.folder === 'Projects' ? 2 : 3`). -/
def groupOf (folder : String) : Nat :=
  if folder = "Inbox" then 1 else if folder = "Projects" then 2 else 3

/-- Embedding of the `nodes` construction in the GraphView D3 effect: a
fresh `GraphNode` per note with no position and no override. -/
def buildNodes (notes : List Note) : List GraphNode :=
  notes.map (fun n => ⟨n.id, n.title, groupOf n.folder, none, none, none, none⟩)

/-- Embedding of `isConnected` in the highlight effect: the selected node
itself, or a member of its `connectionMap` neighbor set. -/
def isConnected (notes : List Note) (sel id : String) : Bool :=
  if id = sel then true else decide (id ∈ adjacencyList notes sel)

/-- Embedding of `isDirectLink` in the highlight effect: an edge is
highlighted iff one endpoint is the selected node and the other is
connected to it. -/
def isDirectLink (notes : List Note) (sel : String) (l : GraphLink) : Bool :=
  (decide (l.source = sel) && isConnected notes sel l.target) ||
  (decide (l.target = sel) && isConnected notes sel l.source)

/-- Full opacity (`baseOpacity = 1` in the highlight effect). -/
def fullOpacity : ℚ := 1

/-- Dimmed opacity (`dimmedOpacity = 0.1` in the highlight effect). -/
def dimmedOpacity : ℚ := 1 / 10

/-- Edge opacity under a selection: 1 when highlighted, 0.1 otherwise. -/
def linkOpacity (notes : List Note) (sel : String) (l : GraphLink) : ℚ :=
  if isDirectLink notes sel l then fullOpacity else dimmedOpacity

/-- Node (and label) opacity under a selection: 1 when in the highlight
set, 0.1 otherwise. -/
def nodeOpacity (notes : List Note) (sel : String) (id : String) : ℚ :=
  if isConnected notes sel id then fullOpacity else dimmedOpacity

theorem dimmed_ne_full : dimmedOpacity ≠ fullOpacity := by
  norm_num [dimmedOpacity, fullOpacity]

/-- Drag-start handler: installs the fixed-position override at the node's
current position (`event.subject.fx = event.subject.x`, same for y). -/
def dragStart (n : GraphNode) : GraphNode :=
  { n with fx := n.x, fy := n.y }

/-- Drag-move handler: the override tracks the pointer
(`event.subject.fx = event.x`, same for y). -/
def dragMove (n : GraphNode) (px py : ℚ) : GraphNode :=
  { n with fx := some px, fy := some py }

/-- Drag-end handler: clears the override
(`event.subject.fx = null; event.subject.fy = null`). -/
def dragEnd (n : GraphNode) : GraphNode :=
  { n with fx := none, fy := none }

/-- Concrete notes used as witnesses: a 3-cycle A → B → C → A. -/
def noteA : Note := ⟨"a", "Alpha".data, "see [[Beta]]".data, "Inbox"⟩

def noteB : Note := ⟨"b", "Beta".data, "see [[gamma]]".data, "Projects"⟩

def noteC : Note := ⟨"c", "Gamma".data, "see [[ALPHA]]".data, "Notes"⟩

/-- A note with no references and a title nobody references. -/
def noteD : Note := ⟨"d", "Delta".data, "no refs here".data, "Notes"⟩

def cycle3 : List Note := [noteA, noteB, noteC]

example : buildLinks cycle3 = [⟨"a", "b"⟩, ⟨"b", "c"⟩, ⟨"c", "a"⟩] := by decide
example : adjacencyList cycle3 "a" = ["b", "c"] := by decide
example : adjacencyList cycle3 "b" = ["a", "c"] := by decide
example : adjacencyList cycle3 "c" = ["b", "a"] := by decide
example : isDirectLink cycle3 "a" ⟨"b", "c"⟩ = false := by decide
example : isDirectLink cycle3 "a" ⟨"a", "b"⟩ = true := by decide
example : isDirectLink cycle3 "a" ⟨"c", "a"⟩ = true := by decide
example : linkOpacity cycle3 "a" ⟨"b", "c"⟩ = dimmedOpacity := by
  simp [linkOpacity, show isDirectLink cycle3 "a" ⟨"b", "c"⟩ = false from by decide]
example : linkOpacity cycle3 "a" ⟨"a", "b"⟩ = fullOpacity := by
  simp [linkOpacity, show isDirectLink cycle3 "a" ⟨"a", "b"⟩ = true from by decide]
example : buildNodes [noteA, noteD] = [⟨"a", "Alpha".data, 1, none, none, none, none⟩,
  ⟨"d", "Delta".data, 3, none, none, none, none⟩] := by decide

theorem mem_setAdd {s : List String} {x y : String} :
    y ∈ setAdd s x ↔ y ∈ s ∨ y = x := by
  unfold setAdd
  split
  · rename_i h
    constructor
    · exact Or.inl
    · rintro (hy | rfl) <;> [exact hy; exact h]
  · simp

theorem setAdd_nodup {s : List String} {x : String} (h : s.Nodup) :
    (setAdd s x).Nodup := by
  unfold setAdd
  split
  · exact h
  · rename_i hx
    simp [List.nodup_append, h, hx]

/-- One step of the `connectionMap` fold: process a resolved pair. -/
def adjStep (a : String) (s : List String) (p : String × String) : List String :=
  let s1 := if p.1 = a then setAdd s p.2 else s
  if p.2 = a then setAdd s1 p.1 else s1

theorem adjacencyList_eq_foldl (notes : List Note) (a : String) :
    adjacencyList notes a = (resolvedPairs notes).foldl (adjStep a) [] := rfl

theorem mem_adjStep {a b : String} {s : List String} {p : String × String} :
    b ∈ adjStep a s p ↔ b ∈ s ∨ (p.1 = a ∧ p.2 = b) ∨ (p.2 = a ∧ p.1 = b) := by
  unfold adjStep
  by_cases h1 : p.1 = a <;> by_cases h2 : p.2 = a <;>
    simp [h1, h2, mem_setAdd] <;> tauto

theorem mem_adjFold : ∀ (pairs : List (String × String)) (init : List String)
    (a b : String), b ∈ pairs.foldl (adjStep a) init ↔
      b ∈ init ∨ ∃ p ∈ pairs, (p.1 = a ∧ p.2 = b) ∨ (p.2 = a ∧ p.1 = b) := by
  intro pairs
  induction pairs with
  | nil => simp
  | cons p rest ih =>
    intro init a b
    rw [List.foldl_cons, ih, mem_adjStep]
    simp only [List.mem_cons]
    constructor
    · rintro ((h | h | h) | ⟨q, hq, hor⟩)
      · exact Or.inl h
      · exact Or.inr ⟨p, Or.inl rfl, Or.inl h⟩
      · exact Or.inr ⟨p, Or.inl rfl, Or.inr h⟩
      · exact Or.inr ⟨q, Or.inr hq, hor⟩
    · rintro (h | ⟨q, (rfl | hq), hor⟩)
      · exact Or.inl (Or.inl h)
      · exact Or.inl (Or.inr hor)
      · exact Or.inr ⟨q, hq, hor⟩

theorem mem_adjacencyList {notes : List Note} {a b : String} :
    b ∈ adjacencyList notes a ↔
      ∃ p ∈ resolvedPairs notes, (p.1 = a ∧ p.2 = b) ∨ (p.2 = a ∧ p.1 = b) := by
  rw [adjacencyList_eq_foldl, mem_adjFold]
  simp

theorem adjFold_nodup : ∀ (pairs : List (String × String)) (init : List String)
    (a : String), init.Nodup → (pairs.foldl (adjStep a) init).Nodup := by
  intro pairs
  induction pairs with
  | nil => intro init a h; exact h
  | cons p rest ih =>
    intro init a h
    rw [List.foldl_cons]
    refine ih _ a ?_
    unfold adjStep
    by_cases h1 : p.1 = a <;> by_cases h2 : p.2 = a <;>
      simp [h1, h2, setAdd_nodup, h]

theorem adjacencyList_nodup (notes : List Note) (a : String) :
    (adjacencyList notes a).Nodup := by
  rw [adjacencyList_eq_foldl]
  exact adjFold_nodup _ _ _ List.nodup_nil

/-- Claim C6: the adjacency index built by the graph builder is symmetric:
for all identities `a` and `b`, `b` is a neighbor of `a` if and only if
`a` is a neighbor of `b`. -/
theorem adjacency_symmetric (notes : List Note) (a b : String) :
    b ∈ adjacencyList notes a ↔ a ∈ adjacencyList notes b := by
  rw [mem_adjacencyList, mem_adjacencyList]
  constructor <;> rintro ⟨p, hp, hor⟩ <;> exact ⟨p, hp, by tauto⟩

/-- Claim C8: releasing a drag (pointer-up) clears the fixed-position
override: after `dragEnd` both `fx` and `fy` are absent, whatever the
preceding drag interaction did, and the node's position is untouched by
the release itself. -/
theorem drag_release_clears_override (n : GraphNode) (px py : ℚ) :
    (dragEnd (dragMove (dragStart n) px py)).fx = none ∧
    (dragEnd (dragMove (dragStart n) px py)).fy = none ∧
    (∀ m : GraphNode, (dragEnd m).fx = none ∧ (dragEnd m).fy = none ∧
      (dragEnd m).x = m.x ∧ (dragEnd m).y = m.y) :=
  ⟨rfl, rfl, fun _ => ⟨rfl, rfl, rfl, rfl⟩⟩

theorem titleToId_eq_none {notes : List Note} {key : List Char}
    (h : ∀ n ∈ notes, lower n.title ≠ key) : titleToId notes key = none := by
  unfold titleToId
  rw [Option.map_eq_none', List.find?_eq_none]
  intro m hm
  simpa using h m (List.mem_reverse.mp hm)

theorem titleToId_some_mem {notes : List Note} {key : List Char} {i : String}
    (h : titleToId notes key = some i) : ∃ m ∈ notes, m.id = i ∧ lower m.title = key := by
  unfold titleToId at h
  rw [Option.map_eq_some'] at h
  obtain ⟨m, hm, hid⟩ := h
  refine ⟨m, List.mem_reverse.mp (List.mem_of_find?_eq_some hm), hid, ?_⟩
  have := List.find?_some hm
  simpa using this

theorem resolveRef_eq_some {notes : List Note} {s : String} {t : List Char}
    {l : GraphLink} (h : resolveRef notes s t = some l) :
    ∃ tid, titleToId notes (lower t) = some tid ∧ tid ≠ "" ∧ l = ⟨s, tid⟩ := by
  rw [resolveRef] at h
  cases htid : titleToId notes (lower t) with
  | none => simp [htid] at h
  | some tid =>
    simp only [htid] at h
    by_cases h0 : tid = ""
    · simp [h0] at h
    · rw [if_neg h0] at h
      exact ⟨tid, rfl, h0, (Option.some.inj h).symm⟩

theorem resolveRef_hit {notes : List Note} {t : List Char} {tid : String}
    (s : String) (htid : titleToId notes (lower t) = some tid) (h0 : tid ≠ "") :
    resolveRef notes s t = some ⟨s, tid⟩ := by
  simp only [resolveRef, htid]
  rw [if_neg h0]

/-- Helper: the resolution map answers the identity of the last note
whose case-folded title equals the key. -/
theorem titleToId_last_write (pre post : List Note) (n : Note) (key : List Char)
    (hn : lower n.title = key) (hpost : ∀ m ∈ post, lower m.title ≠ key) :
    titleToId (pre ++ n :: post) key = some n.id := by
  unfold titleToId
  have h1 : post.reverse.find? (fun m => lower m.title = key) = none := by
    rw [List.find?_eq_none]
    intro m hm
    simpa using hpost m (List.mem_reverse.mp hm)
  have h2 : (n :: pre.reverse).find? (fun m => lower m.title = key) = some n :=
    List.find?_cons_of_pos _ (by simpa using hn)
  rw [List.reverse_append, List.reverse_cons, List.append_assoc,
    List.find?_append, h1, List.singleton_append, h2]
  rfl

/-- Claim C5: when notes share a case-folded title, resolution maps that
title to the identity of the later note in iteration order: for any split
`pre ++ n :: post` where `n` has the key as case-folded title and no note
after `n` does (n is the last such note, `pre` may hold arbitrarily many
earlier notes with the same title), the resolution map answers `n.id`.
The JS `Map` is built by insertion in note order, so later entries
overwrite earlier ones; the identical construction is used in both
`connectionMap` and the D3 effect, so the policy is stable across
rebuilds with the same note order. -/
theorem resolution_later_wins (pre post : List Note) (n : Note) (key : List Char)
    (hn : lower n.title = key) (hpost : ∀ m ∈ post, lower m.title ≠ key) :
    titleToId (pre ++ n :: post) key = some n.id :=
  titleToId_last_write pre post n key hn hpost

/-- Witness for C5: two notes titled "Dup" and "DUP"; the later one
("x2") wins resolution of the shared case-folded title. -/
theorem resolution_later_wins_witness :
    titleToId [⟨"x1", "Dup".data, [], "Notes"⟩, ⟨"x2", "DUP".data, [], "Notes"⟩]
      ("dup".data) = some "x2" :=
  resolution_later_wins [⟨"x1", "Dup".data, [], "Notes"⟩] []
    ⟨"x2", "DUP".data, [], "Notes"⟩ ("dup".data) (by decide) (by decide)

/-- Counterexample to claim C4 at a concrete input: note "x" holds one
reference matching the title of the note with identity "" (the empty
string), which has no references — the claim's hypotheses hold — yet the
program's `if (targetId)` guard treats the resolved target id "" as falsy
and produces zero edges and empty adjacency, not one edge. -/
theorem two_notes_empty_id_counterexample :
    extractLinks ("[[E]]".data) = ["E".data] ∧
    lower ("E".data) = lower ("E".data) ∧
    extractLinks ([] : List Char) = [] ∧
    "x" ≠ "" ∧
    titleToId [⟨"x", "X".data, "[[E]]".data, "Notes"⟩, ⟨"", "E".data, [], "Notes"⟩]
      (lower ("E".data)) = some "" ∧
    buildLinks [⟨"x", "X".data, "[[E]]".data, "Notes"⟩, ⟨"", "E".data, [], "Notes"⟩] = [] ∧
    adjacencyList [⟨"x", "X".data, "[[E]]".data, "Notes"⟩, ⟨"", "E".data, [], "Notes"⟩] "x" = [] ∧
    adjacencyList [⟨"x", "X".data, "[[E]]".data, "Notes"⟩, ⟨"", "E".data, [], "Notes"⟩] "" = [] := by
  decide

/-- Claim C4 as amended: for two notes where A's body contains exactly one
reference whose captured text matches B's title case-insensitively, B's
body has no references, and B's identity is nonempty (an empty-string
target id is falsy and dropped by the `if (targetId)` guard), the edge
set is exactly one edge A→B, and the adjacency index maps A to {B} and
B to {A}. -/
theorem two_notes_single_edge (A B : Note) (t : List Char)
    (hA : extractLinks A.content = [t]) (ht : lower t = lower B.title)
    (hB : extractLinks B.content = []) (hid : A.id ≠ B.id)
    (hB0 : B.id ≠ "") :
    buildLinks [A, B] = [⟨A.id, B.id⟩] ∧
    adjacencyList [A, B] A.id = [B.id] ∧
    adjacencyList [A, B] B.id = [A.id] := by
  have hres : titleToId [A, B] (lower t) = some B.id :=
    titleToId_last_write [A] [] B (lower t) ht.symm (by simp)
  have hpairs : resolvedPairs [A, B] = [(A.id, B.id)] := by
    simp [resolvedPairs, hA, hB, hres, hB0]
  have hid2 : B.id ≠ A.id := fun h => hid h.symm
  refine ⟨?_, ?_, ?_⟩
  · simp [buildLinks, linksOfNote, hA, hB, resolveRef, hres, hB0]
  · rw [adjacencyList_eq_foldl, hpairs]
    simp [adjStep, setAdd, hid2]
  · rw [adjacencyList_eq_foldl, hpairs]
    simp [adjStep, setAdd, hid]

/-- Witness for C4 at concrete notes: "a" references "Beta" (title of "d2"
up to case), which has no references. -/
theorem two_notes_single_edge_witness :
    buildLinks [⟨"a", "Alpha".data, "see [[beta]]".data, "Inbox"⟩, ⟨"b2", "Beta".data, "none".data, "Notes"⟩]
      = [⟨"a", "b2"⟩] ∧
    adjacencyList [⟨"a", "Alpha".data, "see [[beta]]".data, "Inbox"⟩, ⟨"b2", "Beta".data, "none".data, "Notes"⟩] "a" = ["b2"] ∧
    adjacencyList [⟨"a", "Alpha".data, "see [[beta]]".data, "Inbox"⟩, ⟨"b2", "Beta".data, "none".data, "Notes"⟩] "b2" = ["a"] :=
  two_notes_single_edge ⟨"a", "Alpha".data, "see [[beta]]".data, "Inbox"⟩
    ⟨"b2", "Beta".data, "none".data, "Notes"⟩ ("beta".data)
    (by decide) (by decide) (by decide) (by decide) (by decide)

/-- Claim C7: a reference whose case-folded text matches no note's
case-folded title resolves to nothing: it contributes no edge (dropping it
from any reference list leaves the produced edges unchanged), no
placeholder node is created (the node set is exactly one node per note,
with the notes' identities), and every edge of the output has both
endpoints among the note identities.  All functions are total, so no
error is raised. -/
theorem dangling_reference_dropped (notes : List Note) (t : List Char)
    (h : ∀ n ∈ notes, lower n.title ≠ lower t) :
    (∀ s : String, resolveRef notes s t = none) ∧
    (∀ (s : String) (ts1 ts2 : List (List Char)),
      (ts1 ++ t :: ts2).filterMap (resolveRef notes s)
        = (ts1 ++ ts2).filterMap (resolveRef notes s)) ∧
    (∀ l ∈ buildLinks notes,
      l.source ∈ notes.map Note.id ∧ l.target ∈ notes.map Note.id) ∧
    (buildNodes notes).map GraphNode.id = notes.map Note.id := by
  have hnone : titleToId notes (lower t) = none := titleToId_eq_none h
  have h1 : ∀ s : String, resolveRef notes s t = none := by
    intro s; simp [resolveRef, hnone]
  refine ⟨h1, ?_, ?_, ?_⟩
  · intro s ts1 ts2
    simp [List.filterMap_append, List.filterMap_cons, h1 s]
  · intro l hl
    rw [buildLinks, List.mem_flatMap] at hl
    obtain ⟨note, hnote, hln⟩ := hl
    rw [linksOfNote, List.mem_filterMap] at hln
    obtain ⟨t', _, hres⟩ := hln
    obtain ⟨tid, htid, _, rfl⟩ := resolveRef_eq_some hres
    obtain ⟨m, hm, hmid, _⟩ := titleToId_some_mem htid
    constructor
    · exact List.mem_map.mpr ⟨note, hnote, rfl⟩
    · exact List.mem_map.mpr ⟨m, hm, hmid⟩
  · simp [buildNodes, List.map_map]

/-- Witness for C7: "[[Nope]]" resolves to nothing among the cycle notes. -/
theorem dangling_reference_dropped_witness :
    (∀ s : String, resolveRef cycle3 s ("Nope".data) = none) ∧
    (∀ (s : String) (ts1 ts2 : List (List Char)),
      (ts1 ++ "Nope".data :: ts2).filterMap (resolveRef cycle3 s)
        = (ts1 ++ ts2).filterMap (resolveRef cycle3 s)) ∧
    (∀ l ∈ buildLinks cycle3,
      l.source ∈ cycle3.map Note.id ∧ l.target ∈ cycle3.map Note.id) ∧
    (buildNodes cycle3).map GraphNode.id = cycle3.map Note.id :=
  dangling_reference_dropped cycle3 ("Nope".data) (by decide)

theorem filterMap_all_some {α β : Type} (f : α → Option β) (b : β) :
    ∀ ts : List α, (∀ x ∈ ts, f x = some b) →
      ts.filterMap f = List.replicate ts.length b := by
  intro ts
  induction ts with
  | nil => intro _; rfl
  | cons x ts ih =>
    intro h
    rw [List.filterMap_cons, h x (List.mem_cons_self x ts),
      ih (fun y hy => h y (List.mem_cons_of_mem x hy))]
    rfl

/-- Counterexample to claim C10 at a concrete input: note "f" holds two
references that both resolve to the existing note whose identity is ""
(the empty string), yet the program's `if (targetId)` guard drops every
such edge: the edge list holds zero parallel edges, not two, and the
adjacency index records nothing. -/
theorem duplicate_refs_empty_id_counterexample :
    extractLinks ("[[Zed]] [[Zed]]".data) = ["Zed".data, "Zed".data] ∧
    titleToId [⟨"f", "F".data, "[[Zed]] [[Zed]]".data, "Notes"⟩, ⟨"", "Zed".data, [], "Notes"⟩]
      (lower ("Zed".data)) = some "" ∧
    buildLinks [⟨"f", "F".data, "[[Zed]] [[Zed]]".data, "Notes"⟩, ⟨"", "Zed".data, [], "Notes"⟩] = [] ∧
    adjacencyList [⟨"f", "F".data, "[[Zed]] [[Zed]]".data, "Notes"⟩, ⟨"", "Zed".data, [], "Notes"⟩] "f" = [] := by
  decide

/-- Claim C10 as amended: a note whose body holds k references (possibly
textually different) that all resolve to the same target with nonempty
identity (an empty-string id is falsy and dropped by `if (targetId)`)
contributes k parallel edges to the edge list (duplicates are not
deduplicated), and the edge list of the whole graph counts that edge at
least k times; the adjacency index still records the neighbor, and every
adjacency set is duplicate-free (a JS `Set`). -/
theorem duplicate_refs_parallel_edges (notes : List Note) (note : Note)
    (ts : List (List Char)) (k : Nat) (tid : String)
    (hext : extractLinks note.content = ts) (hlen : ts.length = k)
    (hres : ∀ t ∈ ts, titleToId notes (lower t) = some tid)
    (h0 : tid ≠ "") (hmem : note ∈ notes) (hk : 1 ≤ k) :
    linksOfNote notes note = List.replicate k ⟨note.id, tid⟩ ∧
    k ≤ (buildLinks notes).count ⟨note.id, tid⟩ ∧
    tid ∈ adjacencyList notes note.id ∧
    (∀ a : String, (adjacencyList notes a).Nodup) := by
  have h1 : linksOfNote notes note = List.replicate k ⟨note.id, tid⟩ := by
    rw [linksOfNote, hext, ← hlen]
    exact filterMap_all_some _ _ ts
      (fun t ht => resolveRef_hit note.id (hres t ht) h0)
  refine ⟨h1, ?_, ?_, fun a => adjacencyList_nodup notes a⟩
  · obtain ⟨l1, l2, rfl⟩ := List.append_of_mem hmem
    rw [buildLinks, List.flatMap_append, List.flatMap_cons, h1]
    simp [List.count_append, List.count_replicate_self]
    omega
  · cases ts with
    | nil => rw [← hlen] at hk; exact absurd hk (by simp)
    | cons t0 ts2 =>
      rw [mem_adjacencyList]
      refine ⟨(note.id, tid), ?_, Or.inl ⟨rfl, rfl⟩⟩
      rw [resolvedPairs, List.mem_flatMap]
      refine ⟨note, hmem, ?_⟩
      rw [List.mem_filterMap]
      refine ⟨t0, ?_, by simp [hres t0 (List.mem_cons_self t0 ts2), h0]⟩
      rw [hext]
      exact List.mem_cons_self t0 ts2

/-- A note holding two references to "Beta", in different casings. -/
def noteE : Note := ⟨"e", "Eps".data, "[[Beta]] x [[beta]]".data, "Notes"⟩

/-- Witness for C10: two references resolving to the same target "b"
produce two parallel edges e → b, the adjacency of "e" records "b", and
all adjacency sets are duplicate-free. -/
theorem duplicate_refs_parallel_edges_witness :
    linksOfNote [noteE, noteB] noteE = List.replicate 2 ⟨"e", "b"⟩ ∧
    2 ≤ (buildLinks [noteE, noteB]).count ⟨"e", "b"⟩ ∧
    "b" ∈ adjacencyList [noteE, noteB] "e" ∧
    (∀ a : String, (adjacencyList [noteE, noteB] a).Nodup) :=
  duplicate_refs_parallel_edges [noteE, noteB] noteE
    ["Beta".data, "beta".data] 2 "b"
    (by decide) (by decide) (by decide) (by decide) (by decide) (by decide)

/-- The graph node for note "a" as it stood before a rebuild, after the
simulation had moved it to position (5, 7): its last-known position. -/
def prevA : GraphNode := ⟨"a", "Alpha".data, 1, some 5, some 7, none, none⟩

/-- Counterexample to claim C2 at a concrete input: rebuilding with the
prior note set `[noteA]` unchanged and the unrelated `noteD` appended does
NOT give the node for "a" its last-known position `prevA.x = some 5`; the
rebuild constructs every node with an absent position (the D3 effect maps
over the notes alone and never consults the previous nodes). -/
theorem rebuild_positions_counterexample :
    prevA.id = "a" ∧ prevA.x = some 5 ∧ prevA.y = some 7 ∧
    (buildNodes [noteA, noteD]).map GraphNode.id = ["a", "d"] ∧
    ¬ ((buildNodes [noteA, noteD]).head?.map GraphNode.x = some prevA.x) := by
  decide

/-- Claim C2 as amended: node identity is stable across a rebuild (the
rebuilt node list carries exactly the note identities, in note order), but
positions are NOT preserved: every rebuilt node starts with absent
position and override fields, whatever positions the previous nodes had;
d3 re-initializes the layout. -/
theorem rebuild_positions_amended (notes : List Note) (g : GraphNode)
    (h : g ∈ buildNodes notes) :
    g.x = none ∧ g.y = none ∧ g.fx = none ∧ g.fy = none ∧
    (buildNodes notes).map GraphNode.id = notes.map Note.id := by
  rw [buildNodes, List.mem_map] at h
  obtain ⟨n, _, rfl⟩ := h
  exact ⟨rfl, rfl, rfl, rfl, by simp [buildNodes, List.map_map]⟩

/-- Witness for the amended C2 at the rebuild `[noteA, noteD]`. -/
theorem rebuild_positions_amended_witness :
    (⟨"a", "Alpha".data, 1, none, none, none, none⟩ : GraphNode).x = none ∧
    (⟨"a", "Alpha".data, 1, none, none, none, none⟩ : GraphNode).y = none ∧
    (⟨"a", "Alpha".data, 1, none, none, none, none⟩ : GraphNode).fx = none ∧
    (⟨"a", "Alpha".data, 1, none, none, none, none⟩ : GraphNode).fy = none ∧
    (buildNodes [noteA, noteD]).map GraphNode.id = [noteA, noteD].map Note.id :=
  rebuild_positions_amended [noteA, noteD]
    ⟨"a", "Alpha".data, 1, none, none, none, none⟩ (by decide)

/-- Counterexample to claim C1 at a concrete 3-cycle (`cycle3`): with "a"
selected, both "b" and "c" are in the highlight set, yet the edge
⟨"b","c"⟩ — whose endpoints are both in the highlight set — is dimmed,
not at full opacity: `isDirectLink` requires one endpoint to BE the
selected node, so only the selected node's incident edges are raised. -/
theorem cycle_highlight_counterexample :
    buildLinks cycle3 = [⟨"a", "b"⟩, ⟨"b", "c"⟩, ⟨"c", "a"⟩] ∧
    adjacencyList cycle3 "a" = ["b", "c"] ∧
    isConnected cycle3 "a" "b" = true ∧ isConnected cycle3 "a" "c" = true ∧
    linkOpacity cycle3 "a" ⟨"b", "c"⟩ = dimmedOpacity ∧
    linkOpacity cycle3 "a" ⟨"b", "c"⟩ ≠ fullOpacity := by
  have hf : isDirectLink cycle3 "a" ⟨"b", "c"⟩ = false := by decide
  refine ⟨by decide, by decide, by decide, by decide, ?_, ?_⟩
  · simp [linkOpacity, hf]
  · simp only [linkOpacity, hf, Bool.false_eq_true, if_false]
    exact dimmed_ne_full

/-- Claim C1 as amended: for a 3-cycle A → B → C → A (distinct, nonempty
identities — an empty-string target id is falsy and dropped by the
`if (targetId)` guard — and distinct case-folded titles), the builder
produces exactly the 3 edges and each node's adjacency set is exactly the
other two nodes; selecting any one node shows all three nodes at full
opacity, but of the edges only the two incident to the selected node are
at full opacity — the edge joining the other two nodes is dimmed. -/
theorem cycle_highlight_amended (A B C : Note) (ta tb tc : List Char)
    (hA : extractLinks A.content = [ta]) (hta : lower ta = lower B.title)
    (hB : extractLinks B.content = [tb]) (htb : lower tb = lower C.title)
    (hC : extractLinks C.content = [tc]) (htc : lower tc = lower A.title)
    (tAB : lower A.title ≠ lower B.title) (tAC : lower A.title ≠ lower C.title)
    (tBC : lower B.title ≠ lower C.title)
    (iAB : A.id ≠ B.id) (iAC : A.id ≠ C.id) (iBC : B.id ≠ C.id)
    (nA : A.id ≠ "") (nB : B.id ≠ "") (nC : C.id ≠ "") :
    buildLinks [A, B, C] = [⟨A.id, B.id⟩, ⟨B.id, C.id⟩, ⟨C.id, A.id⟩] ∧
    adjacencyList [A, B, C] A.id = [B.id, C.id] ∧
    adjacencyList [A, B, C] B.id = [A.id, C.id] ∧
    adjacencyList [A, B, C] C.id = [B.id, A.id] ∧
    (∀ sel ∈ [A.id, B.id, C.id], ∀ i ∈ [A.id, B.id, C.id],
      nodeOpacity [A, B, C] sel i = fullOpacity) ∧
    (∀ sel ∈ [A.id, B.id, C.id], ∀ l ∈ buildLinks [A, B, C],
      linkOpacity [A, B, C] sel l =
        if l.source = sel ∨ l.target = sel then fullOpacity else dimmedOpacity) ∧
    linkOpacity [A, B, C] A.id ⟨B.id, C.id⟩ = dimmedOpacity := by
  have hresB : titleToId [A, B, C] (lower ta) = some B.id := by
    refine titleToId_last_write [A] [C] B (lower ta) hta.symm ?_
    intro m hm
    simp only [List.mem_singleton] at hm
    subst hm
    rw [hta]
    exact fun h => tBC h.symm
  have hresC : titleToId [A, B, C] (lower tb) = some C.id :=
    titleToId_last_write [A, B] [] C (lower tb) htb.symm (by simp)
  have hresA : titleToId [A, B, C] (lower tc) = some A.id := by
    refine titleToId_last_write [] [B, C] A (lower tc) htc.symm ?_
    intro m hm
    simp only [List.mem_cons, List.mem_singleton, List.not_mem_nil, or_false] at hm
    rcases hm with rfl | rfl
    · rw [htc]; exact fun h => tAB h.symm
    · rw [htc]; exact fun h => tAC h.symm
  have hlinks : buildLinks [A, B, C] = [⟨A.id, B.id⟩, ⟨B.id, C.id⟩, ⟨C.id, A.id⟩] := by
    simp [buildLinks, linksOfNote, hA, hB, hC, resolveRef, hresA, hresB, hresC, nA, nB, nC]
  have hpairs : resolvedPairs [A, B, C] = [(A.id, B.id), (B.id, C.id), (C.id, A.id)] := by
    simp [resolvedPairs, hA, hB, hC, hresA, hresB, hresC, nA, nB, nC]
  have hBA := Ne.symm iAB
  have hCA := Ne.symm iAC
  have hCB := Ne.symm iBC
  have hadjA : adjacencyList [A, B, C] A.id = [B.id, C.id] := by
    rw [adjacencyList_eq_foldl, hpairs]
    simp [adjStep, setAdd, iAB, iAC, iBC, hBA, hCA, hCB]
  have hadjB : adjacencyList [A, B, C] B.id = [A.id, C.id] := by
    rw [adjacencyList_eq_foldl, hpairs]
    simp [adjStep, setAdd, iAB, iAC, iBC, hBA, hCA, hCB]
  have hadjC : adjacencyList [A, B, C] C.id = [B.id, A.id] := by
    rw [adjacencyList_eq_foldl, hpairs]
    simp [adjStep, setAdd, iAB, iAC, iBC, hBA, hCA, hCB]
  refine ⟨hlinks, hadjA, hadjB, hadjC, ?_, ?_, ?_⟩
  · intro sel hsel i hi
    simp only [List.mem_cons, List.not_mem_nil, or_false] at hsel hi
    rcases hsel with rfl | rfl | rfl <;> rcases hi with rfl | rfl | rfl <;>
      simp [nodeOpacity, isConnected, hadjA, hadjB, hadjC,
        iAB, iAC, iBC, hBA, hCA, hCB]
  · intro sel hsel l hl
    rw [hlinks] at hl
    simp only [List.mem_cons, List.not_mem_nil, or_false] at hsel hl
    rcases hsel with rfl | rfl | rfl <;> rcases hl with rfl | rfl | rfl <;>
      simp [linkOpacity, isDirectLink, isConnected, hadjA, hadjB, hadjC,
        iAB, iAC, iBC, hBA, hCA, hCB]
  · have hd : isDirectLink [A, B, C] A.id ⟨B.id, C.id⟩ = false := by
      simp [isDirectLink, hBA, hCA]
    simp [linkOpacity, hd]

/-- Witness for the amended C1 at the concrete cycle `cycle3`. -/
theorem cycle_highlight_amended_witness :
    buildLinks cycle3 = [⟨"a", "b"⟩, ⟨"b", "c"⟩, ⟨"c", "a"⟩] ∧
    adjacencyList cycle3 "a" = ["b", "c"] ∧
    adjacencyList cycle3 "b" = ["a", "c"] ∧
    adjacencyList cycle3 "c" = ["b", "a"] ∧
    (∀ sel ∈ ["a", "b", "c"], ∀ i ∈ ["a", "b", "c"],
      nodeOpacity cycle3 sel i = fullOpacity) ∧
    (∀ sel ∈ ["a", "b", "c"], ∀ l ∈ buildLinks cycle3,
      linkOpacity cycle3 sel l =
        if l.source = sel ∨ l.target = sel then fullOpacity else dimmedOpacity) ∧
    linkOpacity cycle3 "a" ⟨"b", "c"⟩ = dimmedOpacity :=
  cycle_highlight_amended noteA noteB noteC ("Beta".data) ("gamma".data) ("ALPHA".data)
    (by decide) (by decide) (by decide) (by decide) (by decide) (by decide)
    (by decide) (by decide) (by decide) (by decide) (by decide) (by decide)
    (by decide) (by decide) (by decide)

/-- Whether a `]]` occurs anywhere in the list. -/
def hasClose : List Char → Bool
  | [] => false
  | c :: rest => decide (c = ']' ∧ rest.head? = some ']') || hasClose rest

theorem findClose_eq_none_of_no_close {l : List Char} (h : hasClose l = false) :
    findClose l = none := by
  induction l with
  | nil => rfl
  | cons c rest ih =>
    simp only [hasClose, Bool.or_eq_false_iff, decide_eq_false_iff_not] at h
    rw [findClose, if_neg h.1]
    split
    · rfl
    · rw [ih h.2]
      rfl

theorem extractLinks_eq_nil_of_no_close : ∀ l : List Char,
    hasClose l = false → extractLinks l = [] := by
  intro l
  induction l with
  | nil => intro _; rfl
  | cons c rest ih =>
    intro h
    have h2 : hasClose rest = false := by
      simp only [hasClose, Bool.or_eq_false_iff] at h
      exact h.2
    by_cases hc : c = '[' ∧ rest.head? = some '['
    · obtain ⟨rfl, hhd⟩ := hc
      cases rest with
      | nil => simp at hhd
      | cons d r2 =>
        have hd : d = '[' := by simpa using hhd
        subst hd
        have h3 : hasClose r2 = false := by
          simp only [hasClose, Bool.or_eq_false_iff] at h2
          exact h2.2
        rw [extractLinks_open_none (findClose_eq_none_of_no_close h3)]
        exact ih h2
    · rw [extractLinks_not_open hc]
      exact ih h2

theorem extractLinks_gap : ∀ (g s : List Char), '[' ∉ g →
    extractLinks (g ++ s) = extractLinks s := by
  intro g
  induction g with
  | nil => intro s _; rfl
  | cons c g ih =>
    intro s hg
    simp only [List.mem_cons, not_or] at hg
    rw [List.cons_append,
      extractLinks_not_open (fun hh => hg.1 hh.1.symm), ih s hg.2]

theorem findClose_link : ∀ (link rest : List Char),
    (∀ c ∈ link, c ≠ ']' ∧ isLineTerm c = false) →
    findClose (link ++ ']' :: ']' :: rest) = some (link, rest) := by
  intro link
  induction link with
  | nil =>
    intro rest _
    rw [List.nil_append, findClose, if_pos ⟨rfl, rfl⟩]
    rfl
  | cons c link ih =>
    intro rest h
    have hc := h c (List.mem_cons_self c link)
    rw [List.cons_append, findClose,
      if_neg (fun hh => hc.1 hh.1), if_neg (by simp [hc.2]),
      ih rest (fun d hd => h d (List.mem_cons_of_mem c hd))]
    rfl

/-- A body assembled from well-formed link occurrences: each segment is a
gap followed by a bracketed reference, then a trailing tail. -/
def renderBody : List (List Char × List Char) → List Char → List Char
  | [], tail => tail
  | (g, t) :: rest, tail =>
      g ++ '[' :: '[' :: (t ++ ']' :: ']' :: renderBody rest tail)

theorem extractLinks_renderBody : ∀ (segs : List (List Char × List Char))
    (tail : List Char), (∀ p ∈ segs, '[' ∉ p.1) →
    (∀ p ∈ segs, ∀ c ∈ p.2, c ≠ ']' ∧ isLineTerm c = false) →
    extractLinks (renderBody segs tail) = segs.map Prod.snd ++ extractLinks tail := by
  intro segs
  induction segs with
  | nil => intro tail _ _; rfl
  | cons p rest ih =>
    intro tail hg hl
    obtain ⟨g, t⟩ := p
    rw [renderBody, extractLinks_gap _ _ (hg (g, t) (List.mem_cons_self _ _)),
      extractLinks_open_some (findClose_link t _ (hl (g, t) (List.mem_cons_self _ _))),
      ih tail (fun q hq => hg q (List.mem_cons_of_mem _ hq))
        (fun q hq => hl q (List.mem_cons_of_mem _ hq))]
    rfl

/-- Claim C3: for a body assembled from n well-formed `[[...]]`
occurrences (each preceded by bracket-free text, captures free of `]` and
line terminators) and any trailing text, the extractor returns exactly the
n captured strings in left-to-right order, verbatim (duplicates, casing
and whitespace preserved), followed by the matches of the trailing text
alone; in particular the count is n, a trailing unterminated `[[` (no
`]]` after it) yields no extra match, and a body with no `]]` at all
yields the empty sequence. -/
theorem extractLinks_correct (segs : List (List Char × List Char))
    (tail t : List Char)
    (hg : ∀ p ∈ segs, '[' ∉ p.1)
    (hl : ∀ p ∈ segs, ∀ c ∈ p.2, c ≠ ']' ∧ isLineTerm c = false)
    (ht : hasClose t = false) :
    extractLinks (renderBody segs tail) = segs.map Prod.snd ++ extractLinks tail ∧
    (extractLinks (renderBody segs [])).length = segs.length ∧
    extractLinks (renderBody segs ('[' :: '[' :: t)) = segs.map Prod.snd ∧
    (∀ s : List Char, hasClose s = false → extractLinks s = []) := by
  have hmain := extractLinks_renderBody segs tail hg hl
  have ht2 : hasClose ('[' :: '[' :: t) = false := by
    simp only [hasClose, decide_eq_false_iff_not, Bool.or_eq_false_iff]
    simp [ht]
  refine ⟨hmain, ?_, ?_, extractLinks_eq_nil_of_no_close⟩
  · rw [extractLinks_renderBody segs [] hg hl]
    simp [extractLinks_nil]
  · rw [extractLinks_renderBody segs _ hg hl,
      extractLinks_eq_nil_of_no_close _ ht2, List.append_nil]

/-- Witness for C3: two occurrences (one duplicated capture text with its
casing kept), a gap-only tail, and an unterminated trailing `[[`. -/
theorem extractLinks_correct_witness :
    extractLinks (renderBody [(" x ".data, "Note A".data), (" y ".data, "note a".data)] ("zz".data))
      = [(" x ".data, "Note A".data), (" y ".data, "note a".data)].map Prod.snd
        ++ extractLinks ("zz".data) ∧
    (extractLinks (renderBody [(" x ".data, "Note A".data), (" y ".data, "note a".data)] [])).length
      = ([(" x ".data, "Note A".data), (" y ".data, "note a".data)] : List (List Char × List Char)).length ∧
    extractLinks (renderBody [(" x ".data, "Note A".data), (" y ".data, "note a".data)]
      ('[' :: '[' :: "open".data))
      = [(" x ".data, "Note A".data), (" y ".data, "note a".data)].map Prod.snd ∧
    (∀ s : List Char, hasClose s = false → extractLinks s = []) :=
  extractLinks_correct [(" x ".data, "Note A".data), (" y ".data, "note a".data)]
    ("zz".data) ("open".data) (by decide) (by decide) (by decide)

theorem extractTags_gap : ∀ (g s : List Char), '#' ∉ g →
    extractTags (g ++ s) = extractTags s := by
  intro g
  induction g with
  | nil => intro s _; rfl
  | cons c g ih =>
    intro s hg
    simp only [List.mem_cons, not_or] at hg
    rw [List.cons_append,
      extractTags_no (fun hh => hg.1 hh.1.symm), ih s hg.2]

theorem headIsWord_append {g x : List Char} (h : g ≠ []) :
    headIsWord (g ++ x) = headIsWord g := by
  cases g with
  | nil => exact absurd rfl h
  | cons c g => rfl

theorem takeWord_run : ∀ (w s : List Char), (∀ c ∈ w, isWordChar c = true) →
    headIsWord s = false → takeWord (w ++ s) = (w, s) := by
  intro w
  induction w with
  | nil =>
    intro s _ hs
    cases s with
    | nil => rfl
    | cons c s =>
      rw [headIsWord] at hs
      rw [List.nil_append, takeWord, if_neg (by simp [hs])]
  | cons c w ih =>
    intro s hw hs
    have hc := hw c (List.mem_cons_self c w)
    rw [List.cons_append, takeWord, if_pos hc,
      ih s (fun d hd => hw d (List.mem_cons_of_mem c hd)) hs]

/-- A body assembled from well-formed tag occurrences: each segment is a
`#`-prefixed word-character token followed by a gap, then a tail. -/
def renderTags : List (List Char × List Char) → List Char → List Char
  | [], tail => tail
  | (t, g) :: rest, tail => '#' :: (t ++ g ++ renderTags rest tail)

theorem headIsWord_renderTags {segs : List (List Char × List Char)}
    {tail : List Char} (htail : headIsWord tail = false) :
    headIsWord (renderTags segs tail) = false := by
  cases segs with
  | nil => exact htail
  | cons p rest =>
    obtain ⟨t, g⟩ := p
    rfl

theorem extractTags_renderTags : ∀ (segs : List (List Char × List Char))
    (tail : List Char),
    (∀ p ∈ segs, p.1 ≠ [] ∧ (∀ c ∈ p.1, isWordChar c = true) ∧
      '#' ∉ p.2 ∧ (p.2 = [] ∨ headIsWord p.2 = false)) →
    headIsWord tail = false →
    extractTags (renderTags segs tail) = segs.map Prod.fst ++ extractTags tail := by
  intro segs
  induction segs with
  | nil => intro tail _ _; rfl
  | cons p rest ih =>
    intro tail hseg htail
    obtain ⟨t, g⟩ := p
    obtain ⟨htne, htw, hgnohash, hghead⟩ := hseg (t, g) (List.mem_cons_self _ _)
    have hrest : ∀ p ∈ rest, p.1 ≠ [] ∧ (∀ c ∈ p.1, isWordChar c = true) ∧
        '#' ∉ p.2 ∧ (p.2 = [] ∨ headIsWord p.2 = false) :=
      fun q hq => hseg q (List.mem_cons_of_mem _ hq)
    have hafter : headIsWord (g ++ renderTags rest tail) = false := by
      rcases hghead with rfl | hgw
      · rw [List.nil_append]
        exact headIsWord_renderTags htail
      · by_cases hge : g = []
        · subst hge
          rw [List.nil_append]
          exact headIsWord_renderTags htail
        · rw [headIsWord_append hge, hgw]
    have hhead : headIsWord (t ++ (g ++ renderTags rest tail)) = true := by
      cases t with
      | nil => exact absurd rfl htne
      | cons c t2 =>
        rw [List.cons_append, headIsWord]
        exact htw c (List.mem_cons_self _ _)
    rw [renderTags, List.append_assoc, extractTags_hash hhead,
      takeWord_run t _ htw hafter]
    simp only
    rw [extractTags_gap g _ hgnohash, ih tail hrest htail]
    rfl

/-- Claim C9: for a body assembled from n well-formed `#word` occurrences
(each token nonempty and of word characters, each followed by text that
does not start with a word character and holds no `#`) and a trailing
text, the extractor returns the n tokens in left-to-right order, each
without its `#`, followed by the matches of the trailing text alone; and
a `#` not followed by a word character yields no match. -/
theorem extractTags_correct (segs : List (List Char × List Char))
    (tail : List Char)
    (hseg : ∀ p ∈ segs, p.1 ≠ [] ∧ (∀ c ∈ p.1, isWordChar c = true) ∧
      '#' ∉ p.2 ∧ (p.2 = [] ∨ headIsWord p.2 = false))
    (htail : headIsWord tail = false) :
    extractTags (renderTags segs tail) = segs.map Prod.fst ++ extractTags tail ∧
    (extractTags (renderTags segs [])).length = segs.length ∧
    (∀ (c : Char) (s : List Char), isWordChar c = false →
      extractTags ('#' :: c :: s) = extractTags (c :: s)) ∧
    extractTags ['#'] = [] := by
  refine ⟨extractTags_renderTags segs tail hseg htail, ?_, ?_, rfl⟩
  · rw [extractTags_renderTags segs [] hseg rfl]
    simp [extractTags_nil]
  · intro c s hc
    exact extractTags_no (fun hh => by
      rw [headIsWord] at hh
      exact absurd hh.2 (by simp [hc]))

/-- Witness for C9: tags "a" and "b_1" with gaps, a tail with a bare `#`. -/
theorem extractTags_correct_witness :
    extractTags (renderTags [("a".data, " x ".data), ("b_1".data, "!".data)] ("# ".data))
      = [("a".data, " x ".data), ("b_1".data, "!".data)].map Prod.fst
        ++ extractTags ("# ".data) ∧
    (extractTags (renderTags [("a".data, " x ".data), ("b_1".data, "!".data)] [])).length
      = ([("a".data, " x ".data), ("b_1".data, "!".data)] : List (List Char × List Char)).length ∧
    (∀ (c : Char) (s : List Char), isWordChar c = false →
      extractTags ('#' :: c :: s) = extractTags (c :: s)) ∧
    extractTags ['#'] = [] :=
  extractTags_correct [("a".data, " x ".data), ("b_1".data, "!".data)]
    ("# ".data) (by decide) (by decide)
